import Mathlib

/-!
Verification of the `internode` crate: a reclamation scheme for directed
graphs with cycles.  Cells are identified by natural-number ids (modelling
`Arc` allocation identity).  A cell's payload models the user type `T`
through its `Neighbors` capability: the lists of outgoing and incoming
neighbor ids (as in the test `Entity` type, whose string value is
irrelevant to the graph algorithms).  The anchor protocol is modelled with
explicit anchor ids, per-anchor strong counts (`Arc<Anchor>` strong
references) and per-cell anchor slots (`Option<Weak<Anchor>>`).

Source files embedded: `src/internode.rs`, `src/anchor.rs`, `src/node.rs`.
-/

namespace Internode

/-- The payload of a cell, exposing the `Neighbors` capability of the user
type: `succs` models `Neighbors::outgoing`, `preds` models
`Neighbors::incoming` (edge lists in insertion order, as in the test
`Entity` type). -/
structure Payload where
  succs : List Nat
  preds : List Nat
deriving DecidableEq

/-- Global state of the system: `value x` is cell `x`'s payload slot
(`Mutex<Option<T>>`), `anchorSlot x` is its anchor slot
(`Mutex<Option<Weak<Anchor>>>`, holding the id of the referenced anchor),
`strong a` is the strong count of the `Arc` for anchor `a` (0 = dead), and
`anchorCell a` is the cell anchor `a` was created for.  `numCells` and
`numAnchors` are allocation counters. -/
structure St where
  numCells : Nat
  value : Nat → Option Payload
  anchorSlot : Nat → Option Nat
  numAnchors : Nat
  strong : Nat → Nat
  anchorCell : Nat → Nat

/-- Pointwise update of a function out of `Nat`. -/
def upd {α : Type} (f : Nat → α) (i : Nat) (v : α) : Nat → α :=
  fun x => if x = i then v else f x

/-- The empty initial state: no cells, no anchors. -/
def St.init : St :=
  { numCells := 0
    value := fun _ => none
    anchorSlot := fun _ => none
    numAnchors := 0
    strong := fun _ => 0
    anchorCell := fun _ => 0 }

/-- Models `Internode::is_alive`: the payload slot is occupied. -/
def is_alive (s : St) (c : Nat) : Bool := (s.value c).isSome

/-- Models `Internode::is_anchored`: the anchor slot is occupied. -/
def is_anchored (s : St) (c : Nat) : Bool := (s.anchorSlot c).isSome

/-- Models `Internode::anchor_upgraded`: the anchor slot's weak reference, upgraded
(succeeds only while the anchor's strong count is nonzero). -/
def anchor_upgraded (s : St) (c : Nat) : Option Nat :=
  (s.anchorSlot c).bind (fun a => if s.strong a ≠ 0 then some a else none)

/-- Models `Internode::lock`: a guard to the payload if it is present, else `None`. -/
def lock (s : St) (c : Nat) : Option Payload :=
  if (s.value c).isSome then s.value c else none

/-- Models `Internode::outgoing`: lock, then enumerate outgoing neighbors;
empty when the cell has been released. -/
def outgoing (s : St) (c : Nat) : List Nat :=
  match lock s c with
  | some v => v.succs
  | none => []

/-- Models `Internode::incoming`: lock, then enumerate incoming neighbors; empty
when the cell has been released. -/
def incoming (s : St) (c : Nat) : List Nat :=
  match lock s c with
  | some v => v.preds
  | none => []

/-- The shared worklist loop of the four traversal generators in
`internode.rs`.  `mode = true` splices the newly discovered neighbors right
after the current position (`rotate_left`, depth-first); `mode = false`
appends them at the back (breadth-first).  `vis` is the deduplicating
visited set (`HashSet`).  `fuel` bounds the number of loop iterations; the
theorems below show the chosen fuel is large enough that the loop always
drains its worklist. -/
def traverse (nbr : Nat → List Nat) (mode : Bool) :
    Nat → List Nat → List Nat → List Nat
  | 0, _, _ => []
  | _ + 1, [], _ => []
  | fuel + 1, n :: rest, vis =>
    if n ∈ vis then traverse nbr mode fuel rest vis
    else n :: traverse nbr mode fuel
      (if mode then nbr n ++ rest else rest ++ nbr n) (n :: vis)

/-- Largest neighbor-list length over the allocated cells; used to compute
a sufficient iteration budget for the traversal loop. -/
def maxDeg (s : St) : Nat :=
  ((List.range s.numCells).map
    (fun x => max (outgoing s x).length (incoming s x).length)).foldr max 0

/-- Iteration budget sufficient for any traversal of the allocated graph. -/
def searchFuel (s : St) : Nat := s.numCells * (maxDeg s + 1) + 1

/-- Models `Internode::dfs_outgoing`: depth-first over outgoing edges, starting
cell first. -/
def dfs_outgoing (s : St) (c : Nat) : List Nat :=
  traverse (outgoing s) true (searchFuel s) [c] []

/-- Models `Internode::dfs_incoming`: depth-first over incoming edges. -/
def dfs_incoming (s : St) (c : Nat) : List Nat :=
  traverse (incoming s) true (searchFuel s) [c] []

/-- Models `Internode::bfs_outgoing`: breadth-first over outgoing edges. -/
def bfs_outgoing (s : St) (c : Nat) : List Nat :=
  traverse (outgoing s) false (searchFuel s) [c] []

/-- Models `Internode::bfs_incoming`: breadth-first over incoming edges. -/
def bfs_incoming (s : St) (c : Nat) : List Nat :=
  traverse (incoming s) false (searchFuel s) [c] []

/-- Models `Internode::should_live`: the cell itself, then every cell of the
incoming-only DFS (minus the start), then every cell of the outgoing-only
DFS (minus the start), tested for being anchored. -/
def should_live (s : St) (c : Nat) : Bool :=
  (c :: ((dfs_incoming s c).drop 1 ++ (dfs_outgoing s c).drop 1)).any
    (fun n => is_anchored s n)

/-- Models `Internode::release`, on the payload map alone (it touches nothing
else): if the payload of `c` is present, take it out, then release every
incoming and every outgoing neighbor of the removed payload recursively;
if absent, do nothing.  `fuel` bounds the recursion depth; the theorems
below show any fuel beyond the number of occupied cells gives the same
result. -/
def releaseVal : Nat → (Nat → Option Payload) → Nat → (Nat → Option Payload)
  | 0, val, _ => val
  | fuel + 1, val, c =>
    match val c with
    | none => val
    | some v =>
      (v.preds ++ v.succs).foldl (fun t n => releaseVal fuel t n)
        (upd val c none)

/-- Models `Internode::release` as a state transformer, with a recursion budget
that the termination theorem shows is sufficient for well-formed states. -/
def Release (s : St) (c : Nat) : St :=
  { s with value := releaseVal (s.numCells + 1) s.value c }

/-- Models `Anchor::new`: reuse the cell's live anchor if the slot's weak
reference still upgrades, otherwise allocate a fresh anchor with strong
count 1 and record its weak reference into the slot.  Returns the new
state and the anchor id the owning handle now holds. -/
def mkAnchor (s : St) (c : Nat) : St × Nat :=
  match anchor_upgraded s c with
  | some a => ({ s with strong := upd s.strong a (s.strong a + 1) }, a)
  | none =>
    let a := s.numAnchors
    ({ s with
        numAnchors := a + 1
        strong := upd s.strong a 1
        anchorCell := upd s.anchorCell a c
        anchorSlot := upd s.anchorSlot c (some a) }, a)

/-- Models `Node::new`: allocate a fresh cell with an empty edge set and anchor
it.  Returns the state, the new cell id and the anchor id held by the
returned owning handle. -/
def newNode (s : St) : St × Nat × Nat :=
  let c := s.numCells
  let s1 := { s with
    numCells := c + 1
    value := upd s.value c (some { succs := [], preds := [] }) }
  let p := mkAnchor s1 c
  (p.1, c, p.2)

/-- Second half of `Entity::add_edge`: push `f` onto `t`'s incoming list
(within `t`'s own lock scope). -/
def pushPred (s : St) (f t : Nat) : St :=
  match s.value t with
  | none => s
  | some vt =>
    { s with value := upd s.value t (some { vt with preds := vt.preds ++ [f] }) }

/-- Models `Entity::add_edge` from the tests: push `t` onto `f`'s outgoing list,
then push `f` onto `t`'s incoming list (two separate lock scopes). -/
def add_edge (s : St) (f t : Nat) : St :=
  match s.value f with
  | none => s
  | some vf =>
    pushPred
      { s with value := upd s.value f (some { vf with succs := vf.succs ++ [t] }) }
      f t

/-- Models `Internode::upgrade`: promotion succeeds iff the payload is present, in
which case `Anchor::new` runs. -/
def upgrade (s : St) (c : Nat) : Option (St × Nat) :=
  if is_alive s c then some (mkAnchor s c) else none

/-- The state after a promotion attempt (unchanged when promotion fails). -/
def upgradeSt (s : St) (c : Nat) : St :=
  match upgrade s c with
  | some p => p.1
  | none => s

/-- Models `Node::clone`: one more strong reference to the shared anchor. -/
def cloneNode (s : St) (a : Nat) : St :=
  { s with strong := upd s.strong a (s.strong a + 1) }

/-- The first half of `Anchor::drop`: the anchor's strong count reaches 0
and the originating cell's anchor slot is taken (cleared). -/
def clearAnchor (s : St) (a : Nat) : St :=
  { s with
    strong := upd s.strong a 0
    anchorSlot := upd s.anchorSlot (s.anchorCell a) none }

/-- Dropping one owning handle of anchor `a`.  If it was the last strong
reference, `Anchor::drop` runs: clear the originating cell's anchor slot,
then release the cell unless `should_live` certifies it. -/
def dropAnchor (s : St) (a : Nat) : St :=
  if s.strong a ≤ 1 then
    if should_live (clearAnchor s a) (s.anchorCell a) then clearAnchor s a
    else Release (clearAnchor s a) (s.anchorCell a)
  else { s with strong := upd s.strong a (s.strong a - 1) }

/-- One public operation of the library, as a state transition. -/
inductive Step : St → St → Prop
  | newNode (s : St) : Step s (newNode s).1
  | add_edge (s : St) (f t : Nat) (hf : is_alive s f = true)
      (ht : is_alive s t = true) : Step s (add_edge s f t)
  | upgrade (s : St) (c : Nat) : Step s (upgradeSt s c)
  | cloneNode (s : St) (a : Nat) (ha : s.strong a ≠ 0) :
      Step s (cloneNode s a)
  | dropAnchor (s : St) (a : Nat) (ha : s.strong a ≠ 0) :
      Step s (dropAnchor s a)

/-- States reachable from the empty state by public operations. -/
inductive Reachable : St → Prop
  | init : Reachable St.init
  | step {s s' : St} : Reachable s → Step s s' → Reachable s'

/-- Reachability along a neighbor function: repeatedly following only that
one edge direction. -/
inductive Reaches (nbr : Nat → List Nat) : Nat → Nat → Prop
  | refl (x : Nat) : Reaches nbr x x
  | head {x y z : Nat} : y ∈ nbr x → Reaches nbr y z → Reaches nbr x z

/-- Number of cells among the first `N` ids whose payload is present. -/
def aliveCount (N : Nat) (val : Nat → Option Payload) : Nat :=
  ((Finset.range N).filter (fun x => (val x).isSome)).card

/-- The structural invariant of reachable states: payloads and their edge
lists mention only allocated cells; an occupied anchor slot points to a
live anchor of that very cell; a live anchor is recorded in its cell's
slot; unallocated anchors are dead and unallocated cells have empty
slots. -/
structure Inv (s : St) : Prop where
  wf_value : ∀ x, (s.value x).isSome → x < s.numCells
  wf_nbr : ∀ x v, s.value x = some v →
    ∀ n, n ∈ v.succs ++ v.preds → n < s.numCells
  slot_cell : ∀ c a, s.anchorSlot c = some a → s.anchorCell a = c
  slot_live : ∀ c a, s.anchorSlot c = some a → s.strong a ≠ 0
  live_slot : ∀ a, s.strong a ≠ 0 → s.anchorSlot (s.anchorCell a) = some a
  fresh_strong : ∀ a, s.numAnchors ≤ a → s.strong a = 0
  fresh_slot : ∀ c, s.numCells ≤ c → s.anchorSlot c = none

/-! ### Concrete scenario states

Each is built from `St.init` by the public operations, mirroring a test or
a spec scenario; cells and anchors are numbered in creation order. -/

/-- The `traversal` test graph (P4): cells a=0, b=1, c=2, d=3 with edges
a→b, a→c, b→d, c→d, d→a, all four owning handles held. -/
def sP4 : St :=
  let t0 := (newNode St.init).1
  let t1 := (newNode t0).1
  let t2 := (newNode t1).1
  let t3 := (newNode t2).1
  add_edge (add_edge (add_edge (add_edge (add_edge t3 0 1) 0 2) 1 3) 2 3) 3 0

/-- The `lifecycle_2` / P3 graph: A=0, B=1, C=2 with the cycle A→B, B→C,
C→A, all three owning handles held (anchors 0, 1, 2). -/
def sP3base : St :=
  let t0 := (newNode St.init).1
  let t1 := (newNode t0).1
  let t2 := (newNode t1).1
  add_edge (add_edge (add_edge t2 0 1) 1 2) 2 0

/-- P3 after dropping A's and B's owning handles, C's retained. -/
def sP3 : St := dropAnchor (dropAnchor sP3base 0) 1

/-- P3 after additionally dropping C's owning handle. -/
def sP3dead : St := dropAnchor sP3 2

/-- Mixed-direction cascade scenario: A=0, X=1, M=2 with edges X→M and
A→M, all three owning handles held (anchors 0, 1, 2). -/
def sBugBase : St :=
  let t0 := (newNode St.init).1
  let t1 := (newNode t0).1
  let t2 := (newNode t1).1
  add_edge (add_edge t2 1 2) 0 2

/-- The scenario above after dropping M's owning handle (anchor 2) and then
X's (anchor 1), while A's owning handle (anchor 0) is still held. -/
def sBug : St := dropAnchor (dropAnchor sBugBase 2) 1

/-- Alternating-direction example: cells 0, 1, 2 with edges 0→1 and 2→1;
owning handles of 0 and 1 dropped, 2's retained.  Cell 2 is reachable from
cell 0 only by an outgoing step followed by an incoming step. -/
def sAltBase : St :=
  let t0 := (newNode St.init).1
  let t1 := (newNode t0).1
  let t2 := (newNode t1).1
  add_edge (add_edge t2 0 1) 2 1

/-- The alternating-direction example with only cell 2 still anchored. -/
def sAlt : St := dropAnchor (dropAnchor sAltBase 0) 1

/-- A single node whose only owning handle has been dropped: its payload is
released. -/
def sRel : St := dropAnchor (newNode St.init).1 0

/-- A single live node with its owning handle held (cell 0, anchor 0). -/
def sOne : St := (newNode St.init).1

/-! ### Reachability of the scenario states -/

theorem reachable_sP4 : Reachable sP4 := by
  refine .step (.step (.step (.step (.step (.step (.step (.step (.step
    .init (.newNode St.init)) (.newNode _)) (.newNode _)) (.newNode _))
    (.add_edge _ 0 1 (by decide) (by decide)))
    (.add_edge _ 0 2 (by decide) (by decide)))
    (.add_edge _ 1 3 (by decide) (by decide)))
    (.add_edge _ 2 3 (by decide) (by decide)))
    (.add_edge _ 3 0 (by decide) (by decide))

theorem reachable_sP3base : Reachable sP3base := by
  refine .step (.step (.step (.step (.step (.step
    .init (.newNode St.init)) (.newNode _)) (.newNode _))
    (.add_edge _ 0 1 (by decide) (by decide)))
    (.add_edge _ 1 2 (by decide) (by decide)))
    (.add_edge _ 2 0 (by decide) (by decide))

theorem reachable_sP3 : Reachable sP3 :=
  .step (.step reachable_sP3base (.dropAnchor _ 0 (by decide)))
    (.dropAnchor _ 1 (by decide))

theorem reachable_sP3dead : Reachable sP3dead :=
  .step reachable_sP3 (.dropAnchor _ 2 (by decide))

theorem reachable_sBug : Reachable sBug := by
  refine .step (.step (.step (.step (.step (.step (.step
    .init (.newNode St.init)) (.newNode _)) (.newNode _))
    (.add_edge _ 1 2 (by decide) (by decide)))
    (.add_edge _ 0 2 (by decide) (by decide)))
    (.dropAnchor _ 2 (by decide))) (.dropAnchor _ 1 (by decide))

theorem reachable_sAlt : Reachable sAlt := by
  refine .step (.step (.step (.step (.step (.step (.step
    .init (.newNode St.init)) (.newNode _)) (.newNode _))
    (.add_edge _ 0 1 (by decide) (by decide)))
    (.add_edge _ 2 1 (by decide) (by decide)))
    (.dropAnchor _ 0 (by decide))) (.dropAnchor _ 1 (by decide))

theorem reachable_sRel : Reachable sRel :=
  .step (.step .init (.newNode St.init)) (.dropAnchor _ 0 (by decide))

theorem reachable_sOne : Reachable sOne :=
  .step .init (.newNode St.init)

/-- C9: on the literal P4 graph (a=0, b=1, c=2, d=3 with edges a→b, a→c,
b→d, c→d, d→a), the four traversals from a yield exactly: depth-first
outgoing [a,b,d,c]; depth-first incoming [a,d,b,c]; breadth-first outgoing
[a,b,c,d]; breadth-first incoming [a,d,b,c]. -/
theorem traversal_orders :
    dfs_outgoing sP4 0 = [0, 1, 3, 2] ∧
    dfs_incoming sP4 0 = [0, 3, 1, 2] ∧
    bfs_outgoing sP4 0 = [0, 1, 2, 3] ∧
    bfs_incoming sP4 0 = [0, 3, 1, 2] := by
  refine ⟨by decide, by decide, by decide, by decide⟩

/-- C3: in the three-node cycle A→B→C→A with all three downgraded and only
C's owning handle retained, promotion of each of A, B, C still succeeds;
after dropping C's last owning handle, promotion of all three fails. -/
theorem cycle_survivor_lifecycle :
    (upgrade sP3 0).isSome = true ∧
    (upgrade sP3 1).isSome = true ∧
    (upgrade sP3 2).isSome = true ∧
    (upgrade sP3dead 0).isSome = false ∧
    (upgrade sP3dead 1).isSome = false ∧
    (upgrade sP3dead 2).isSome = false := by
  refine ⟨by decide, by decide, by decide, by decide, by decide, by decide⟩

/-- C2: a reachable state in which the cascade triggered by dropping cell
1's (X's) last owning handle has cleared the payload of cell 0 (A) even
though A's anchor is still live (strong count 1, anchor slot still set):
with edges X→M and A→M, `should_live(X)` sees neither the pure-outgoing
nor the pure-incoming universe contain A, yet `release` cascades X → M
(outgoing) → A (incoming) and takes A's payload.  This violates invariant
I1. -/
theorem anchored_cell_released :
    Reachable sBug ∧
    sBug.strong 0 = 1 ∧
    sBug.anchorSlot 0 = some 0 ∧
    is_anchored sBug 0 = true ∧
    sBugBase.value 0 ≠ none ∧
    sBug.value 0 = none := by
  exact ⟨reachable_sBug, by decide, by decide, by decide, by decide, by decide⟩

/-! ### Release: basic lemmas -/

theorem upd_self {α : Type} (f : Nat → α) (i : Nat) (v : α) : upd f i v i = v := by
  simp [upd]

theorem upd_other {α : Type} (f : Nat → α) (i : Nat) (v : α) (x : Nat)
    (h : x ≠ i) : upd f i v x = f x := by
  simp [upd, h]

theorem releaseVal_of_none {f : Nat} {val : Nat → Option Payload} {c : Nat}
    (h : val c = none) : releaseVal f val c = val := by
  cases f with
  | zero => rfl
  | succ f => simp only [releaseVal, h]

theorem releaseVal_of_some {f : Nat} {val : Nat → Option Payload} {c : Nat}
    {v : Payload} (h : val c = some v) :
    releaseVal (f + 1) val c =
      (v.preds ++ v.succs).foldl (fun t n => releaseVal f t n)
        (upd val c none) := by
  simp only [releaseVal, h]

theorem foldl_release_none {f : Nat}
    (H : ∀ (val : Nat → Option Payload) (c x : Nat), val x = none →
      releaseVal f val c x = none) :
    ∀ (l : List Nat) (val : Nat → Option Payload) (x : Nat), val x = none →
      (l.foldl (fun t n => releaseVal f t n) val) x = none := by
  intro l
  induction l with
  | nil => intro val x h; simpa using h
  | cons m rest ih => intro val x h; exact ih _ _ (H val m x h)

theorem releaseVal_none_mono :
    ∀ (f : Nat) (val : Nat → Option Payload) (c x : Nat),
      val x = none → releaseVal f val c x = none := by
  intro f
  induction f with
  | zero => intro val c x h; exact h
  | succ f ih =>
    intro val c x h
    cases hv : val c with
    | none => rw [releaseVal_of_none hv]; exact h
    | some v =>
      rw [releaseVal_of_some hv]
      refine foldl_release_none ih _ _ _ ?_
      by_cases hx : x = c
      · subst hx; exact upd_self _ _ _
      · rw [upd_other _ _ _ _ hx]; exact h

theorem releaseVal_self {f : Nat} (val : Nat → Option Payload) (c : Nat)
    (hf : 1 ≤ f) : releaseVal f val c c = none := by
  obtain ⟨g, rfl⟩ : ∃ g, f = g + 1 := ⟨f - 1, by omega⟩
  cases hv : val c with
  | none => rw [releaseVal_of_none hv]; exact hv
  | some v =>
    rw [releaseVal_of_some hv]
    exact foldl_release_none (releaseVal_none_mono g) _ _ _ (upd_self _ _ _)

theorem foldl_release_mem {f : Nat} (hf : 1 ≤ f) :
    ∀ (l : List Nat) (val : Nat → Option Payload) (x : Nat), x ∈ l →
      (l.foldl (fun t n => releaseVal f t n) val) x = none := by
  intro l
  induction l with
  | nil => intro val x h; cases h
  | cons m rest ih =>
    intro val x h
    rcases List.mem_cons.mp h with rfl | hx
    · simp only [List.foldl_cons]
      exact foldl_release_none (releaseVal_none_mono f) rest _ _
        (releaseVal_self val x hf)
    · exact ih _ _ hx

theorem releaseVal_subset :
    ∀ (f : Nat) (val : Nat → Option Payload) (c x : Nat),
      releaseVal f val c x = none ∨ releaseVal f val c x = val x := by
  intro f
  induction f with
  | zero => intro val c x; right; rfl
  | succ f ih =>
    intro val c x
    cases hv : val c with
    | none => rw [releaseVal_of_none hv]; right; rfl
    | some v =>
      rw [releaseVal_of_some hv]
      have hfold : ∀ (l : List Nat) (t : Nat → Option Payload) (y : Nat),
          (l.foldl (fun u n => releaseVal f u n) t) y = none ∨
          (l.foldl (fun u n => releaseVal f u n) t) y = t y := by
        intro l
        induction l with
        | nil => intro t y; right; rfl
        | cons m rest ihl =>
          intro t y
          simp only [List.foldl_cons]
          rcases ihl (releaseVal f t m) y with h | h
          · left; exact h
          · rcases ih t m y with h2 | h2
            · left; rw [h, h2]
            · right; rw [h, h2]
      rcases hfold (v.preds ++ v.succs) (upd val c none) x with h | h
      · left; exact h
      · by_cases hx : x = c
        · subst hx; left; rw [h]; exact upd_self _ _ _
        · right; rw [h]; exact upd_other _ _ _ _ hx

/-- C4: release removes a present payload (leaving it permanently absent)
and recursively releases every incoming and outgoing neighbor of the
removed payload; on an absent payload it changes nothing; hence releasing
twice is the same as releasing once. -/
theorem release_cascade_idempotent (s : St) (c : Nat) (hN : 1 ≤ s.numCells) :
    (s.value c = none → Release s c = s) ∧
    (∀ v, s.value c = some v →
      (Release s c).value c = none ∧
      ∀ n, n ∈ v.preds ++ v.succs → (Release s c).value n = none) ∧
    Release (Release s c) c = Release s c := by
  have hnoop : ∀ (t : St), t.value c = none → Release t c = t := by
    intro t ht
    show { t with value := releaseVal (t.numCells + 1) t.value c } = t
    rw [releaseVal_of_none ht]
  refine ⟨hnoop s, ?_, ?_⟩
  · intro v hv
    constructor
    · exact releaseVal_self _ _ (by omega)
    · intro n hn
      show releaseVal (s.numCells + 1) s.value c n = none
      rw [releaseVal_of_some hv]
      exact foldl_release_mem hN _ _ _ hn
  · cases hv : s.value c with
    | none => rw [hnoop s hv, hnoop s hv]
    | some v =>
      apply hnoop
      exact releaseVal_self _ _ (by omega)

/-! ### Release: fuel independence (termination) -/

theorem aliveCount_upd_none {N : Nat} {val : Nat → Option Payload} {c : Nat}
    (hc : c < N) (hv : (val c).isSome) :
    aliveCount N (upd val c none) + 1 = aliveCount N val := by
  have hfil : (Finset.range N).filter (fun x => (upd val c none x).isSome) =
      ((Finset.range N).filter (fun x => (val x).isSome)).erase c := by
    ext x
    by_cases hx : x = c
    · subst hx
      simp [upd_self]
    · simp [Finset.mem_erase, hx, upd_other _ _ _ _ hx]
  have hmem : c ∈ (Finset.range N).filter (fun x => (val x).isSome) := by
    simp [Finset.mem_filter, Finset.mem_range, hc, hv]
  unfold aliveCount
  rw [hfil, Finset.card_erase_of_mem hmem]
  have := Finset.card_pos.mpr ⟨c, hmem⟩
  omega

theorem aliveCount_mono {N : Nat} {val val' : Nat → Option Payload}
    (h : ∀ x, val' x = none ∨ val' x = val x) :
    aliveCount N val' ≤ aliveCount N val := by
  apply Finset.card_le_card
  intro x hx
  simp only [Finset.mem_filter, Finset.mem_range] at hx ⊢
  rcases h x with h' | h'
  · rw [h'] at hx; simp at hx
  · rw [h'] at hx; exact hx

theorem releaseVal_fuel_eq (N : Nat) :
    ∀ (n : Nat) (val : Nat → Option Payload), aliveCount N val = n →
      (∀ x, (val x).isSome → x < N) →
      ∀ (c f₁ f₂ : Nat), n + 1 ≤ f₁ → n + 1 ≤ f₂ →
        releaseVal f₁ val c = releaseVal f₂ val c := by
  intro n
  induction n using Nat.strong_induction_on with
  | _ n ih =>
    intro val hcount hwf c f₁ f₂ h1 h2
    obtain ⟨g₁, rfl⟩ : ∃ g, f₁ = g + 1 := ⟨f₁ - 1, by omega⟩
    obtain ⟨g₂, rfl⟩ : ∃ g, f₂ = g + 1 := ⟨f₂ - 1, by omega⟩
    cases hv : val c with
    | none => rw [releaseVal_of_none hv, releaseVal_of_none hv]
    | some v =>
      rw [releaseVal_of_some hv, releaseVal_of_some hv]
      have hc : c < N := hwf c (by simp [hv])
      have hlt : aliveCount N (upd val c none) < n := by
        have := @aliveCount_upd_none N val c hc (by simp [hv])
        omega
      have hwf' : ∀ x, ((upd val c none) x).isSome → x < N := by
        intro x hx
        by_cases hxc : x = c
        · subst hxc; exact hc
        · rw [upd_other _ _ _ _ hxc] at hx; exact hwf x hx
      have hfold : ∀ (l : List Nat) (t : Nat → Option Payload),
          aliveCount N t < n → (∀ x, (t x).isSome → x < N) →
          l.foldl (fun u m => releaseVal g₁ u m) t =
          l.foldl (fun u m => releaseVal g₂ u m) t := by
        intro l
        induction l with
        | nil => intro t _ _; rfl
        | cons m rest ihl =>
          intro t hlt' hwt
          have heq : releaseVal g₁ t m = releaseVal g₂ t m :=
            ih (aliveCount N t) hlt' t rfl hwt m g₁ g₂ (by omega) (by omega)
          have hsub := releaseVal_subset g₁ t m
          have hwt' : ∀ x, ((releaseVal g₁ t m) x).isSome → x < N := by
            intro x hx
            rcases hsub x with h' | h'
            · rw [h'] at hx; simp at hx
            · rw [h'] at hx; exact hwt x hx
          have hlt'' : aliveCount N (releaseVal g₁ t m) < n :=
            lt_of_le_of_lt (aliveCount_mono hsub) hlt'
          simp only [List.foldl_cons]
          rw [← heq]
          exact ihl (releaseVal g₁ t m) hlt'' hwt'
      exact hfold _ _ hlt hwf'

/-- C5: the cascading release terminates on every finite graph, cycles and
diamonds included: every recursion budget beyond the number of still-alive
cells computes the same result, namely the one `Release` itself uses, so
the recursion (stopped at already-absent payloads) reaches a fixpoint. -/
theorem release_terminates (s : St) (c : Nat)
    (hwf : ∀ x, (s.value x).isSome → x < s.numCells) :
    ∀ f, aliveCount s.numCells s.value + 1 ≤ f →
      releaseVal f s.value c = (Release s c).value := by
  intro f hf
  have hle : aliveCount s.numCells s.value ≤ s.numCells := by
    have := Finset.card_filter_le (Finset.range s.numCells)
      (fun x => (s.value x).isSome)
    simpa [aliveCount] using this
  exact releaseVal_fuel_eq s.numCells (aliveCount s.numCells s.value)
    s.value rfl hwf c f (s.numCells + 1) hf (by omega)

/-! ### Traversal: the worklist loop computes single-direction
reachability -/

theorem reach_escape {nbr : Nat → List Nat} {vis ws : List Nat}
    (hinv : ∀ y ∈ vis, ∀ z ∈ nbr y, z ∈ vis ∨ z ∈ ws) :
    ∀ {w x : Nat}, Reaches nbr w x → w ∈ vis → x ∉ vis →
      ∃ z, z ∈ ws ∧ z ∉ vis ∧ Reaches nbr z x := by
  intro w x h
  induction h with
  | refl w => intro hw hx; exact absurd hw hx
  | @head a y z hy _ ihr =>
    intro hw hx
    by_cases hyv : y ∈ vis
    · exact ihr hyv hx
    · rcases hinv a hw y hy with h' | h'
      · exact absurd h' hyv
      · exact ⟨y, h', hyv, by assumption⟩

theorem sdiff_insert_card {S V : Finset Nat} {n : Nat} (hnS : n ∈ S)
    (hnV : n ∉ V) : (S \ insert n V).card + 1 = (S \ V).card := by
  have he : S \ insert n V = (S \ V).erase n := by
    ext x
    simp only [Finset.mem_sdiff, Finset.mem_insert, Finset.mem_erase]
    tauto
  have hmem : n ∈ S \ V := Finset.mem_sdiff.mpr ⟨hnS, hnV⟩
  rw [he, Finset.card_erase_of_mem hmem]
  have := Finset.card_pos.mpr ⟨n, hmem⟩
  omega

theorem traverse_mem_iff (nbr : Nat → List Nat) (mode : Bool)
    (S : Finset Nat) (K : Nat)
    (hS : ∀ x, ∀ y ∈ nbr x, y ∈ S) (hK : ∀ x ∈ S, (nbr x).length ≤ K) :
    ∀ (fuel : Nat) (ws vis : List Nat),
      (∀ x ∈ ws, x ∈ S) →
      (∀ y ∈ vis, ∀ z ∈ nbr y, z ∈ vis ∨ z ∈ ws) →
      (S \ vis.toFinset).card * (K + 1) + ws.length ≤ fuel →
      ∀ x, x ∈ traverse nbr mode fuel ws vis ↔
        (x ∉ vis ∧ ∃ w ∈ ws, Reaches nbr w x) := by
  intro fuel
  induction fuel with
  | zero =>
    intro ws vis _ _ hfuel x
    have hws0 : ws = [] := List.eq_nil_of_length_eq_zero (by omega)
    subst hws0
    simp [traverse]
  | succ fuel ih =>
    intro ws vis hws hinv hfuel x
    cases ws with
    | nil => simp [traverse]
    | cons n rest =>
      by_cases hn : n ∈ vis
      · -- already visited: popped and skipped
        have hred : traverse nbr mode (fuel + 1) (n :: rest) vis =
            traverse nbr mode fuel rest vis := by
          simp only [traverse, if_pos hn]
        have hinv' : ∀ y ∈ vis, ∀ z ∈ nbr y, z ∈ vis ∨ z ∈ rest := by
          intro y hy z hz
          rcases hinv y hy z hz with h | h
          · exact Or.inl h
          · rcases List.mem_cons.mp h with rfl | h'
            · exact Or.inl hn
            · exact Or.inr h'
        have hfe : (S \ vis.toFinset).card * (K + 1) + rest.length ≤ fuel := by
          simp only [List.length_cons] at hfuel; omega
        rw [hred, ih rest vis (fun y hy => hws y (List.mem_cons_of_mem _ hy))
          hinv' hfe x]
        constructor
        · rintro ⟨hxv, w, hw, hr⟩
          exact ⟨hxv, w, List.mem_cons_of_mem _ hw, hr⟩
        · rintro ⟨hxv, w, hw, hr⟩
          rcases List.mem_cons.mp hw with rfl | hw'
          · obtain ⟨z, hz, hzv, hzr⟩ := reach_escape hinv' hr hn hxv
            exact ⟨hxv, z, hz, hzr⟩
          · exact ⟨hxv, w, hw', hr⟩
      · -- newly visited: yielded and expanded
        have hred : traverse nbr mode (fuel + 1) (n :: rest) vis =
            n :: traverse nbr mode fuel
              (if mode then nbr n ++ rest else rest ++ nbr n) (n :: vis) := by
          simp only [traverse, if_neg hn]
        have hmem' : ∀ z, z ∈ (if mode then nbr n ++ rest else rest ++ nbr n)
            ↔ z ∈ nbr n ∨ z ∈ rest := by
          intro z
          cases mode <;> (simp [List.mem_append]; try tauto)
        have hlen' : (if mode then nbr n ++ rest
            else rest ++ nbr n).length = (nbr n).length + rest.length := by
          cases mode <;> (simp [List.length_append]; try omega)
        have hnS : n ∈ S := hws n (List.mem_cons_self _ _)
        have hws' : ∀ y ∈ (if mode then nbr n ++ rest else rest ++ nbr n),
            y ∈ S := by
          intro y hy
          rcases (hmem' y).mp hy with h | h
          · exact hS n y h
          · exact hws y (List.mem_cons_of_mem _ h)
        have hinv' : ∀ y ∈ n :: vis, ∀ z ∈ nbr y,
            z ∈ n :: vis ∨ z ∈ (if mode then nbr n ++ rest
              else rest ++ nbr n) := by
          intro y hy z hz
          rcases List.mem_cons.mp hy with rfl | hy'
          · exact Or.inr ((hmem' z).mpr (Or.inl hz))
          · rcases hinv y hy' z hz with h | h
            · exact Or.inl (List.mem_cons_of_mem _ h)
            · rcases List.mem_cons.mp h with rfl | h'
              · exact Or.inl (List.mem_cons_self _ _)
              · exact Or.inr ((hmem' z).mpr (Or.inr h'))
        have hfe : (S \ (n :: vis).toFinset).card * (K + 1) +
            (if mode then nbr n ++ rest else rest ++ nbr n).length ≤ fuel := by
          have hnv : n ∉ vis.toFinset := by
            simpa [List.mem_toFinset] using hn
          have hcard : (S \ insert n vis.toFinset).card + 1 =
              (S \ vis.toFinset).card := sdiff_insert_card hnS hnv
          have hKn : (nbr n).length ≤ K := hK n hnS
          have hexp : ((S \ insert n vis.toFinset).card + 1) * (K + 1) =
              (S \ insert n vis.toFinset).card * (K + 1) + (K + 1) :=
            Nat.succ_mul _ _
          rw [List.toFinset_cons]
          rw [← hcard, hexp] at hfuel
          simp only [List.length_cons] at hfuel
          omega
        rw [hred, List.mem_cons,
          ih _ (n :: vis) hws' hinv' hfe x]
        constructor
        · rintro (rfl | ⟨hxv', w, hw, hr⟩)
          · exact ⟨hn, x, List.mem_cons_self _ _, Reaches.refl x⟩
          · have hxv : x ∉ vis := fun h => hxv' (List.mem_cons_of_mem _ h)
            rcases (hmem' w).mp hw with hwn | hwr
            · exact ⟨hxv, n, List.mem_cons_self _ _, Reaches.head hwn hr⟩
            · exact ⟨hxv, w, List.mem_cons_of_mem _ hwr, hr⟩
        · rintro ⟨hxv, w, hw, hr⟩
          by_cases hxn : x = n
          · exact Or.inl hxn
          · refine Or.inr ⟨?_, ?_⟩
            · intro h
              rcases List.mem_cons.mp h with h' | h'
              · exact hxn h'
              · exact hxv h'
            · rcases List.mem_cons.mp hw with rfl | hw'
              · cases hr with
                | refl => exact absurd rfl hxn
                | @head a y z hy hr' =>
                  exact ⟨y, (hmem' y).mpr (Or.inl hy), hr'⟩
              · exact ⟨w, (hmem' w).mpr (Or.inr hw'), hr⟩

theorem le_foldr_max :
    ∀ (l : List Nat) (a : Nat), a ∈ l → a ≤ l.foldr max 0 := by
  intro l
  induction l with
  | nil => intro a h; cases h
  | cons b rest ih =>
    intro a h
    rcases List.mem_cons.mp h with rfl | h'
    · exact le_max_left _ _
    · exact le_trans (ih a h') (le_max_right _ _)

theorem outgoing_len_le {s : St} {x : Nat} (hx : x < s.numCells) :
    (outgoing s x).length ≤ maxDeg s := by
  have hmem : max (outgoing s x).length (incoming s x).length ∈
      (List.range s.numCells).map
        (fun y => max (outgoing s y).length (incoming s y).length) :=
    List.mem_map_of_mem _ (List.mem_range.mpr hx)
  have := le_foldr_max _ _ hmem
  unfold maxDeg
  exact le_trans (le_max_left _ _) this

theorem incoming_len_le {s : St} {x : Nat} (hx : x < s.numCells) :
    (incoming s x).length ≤ maxDeg s := by
  have hmem : max (outgoing s x).length (incoming s x).length ∈
      (List.range s.numCells).map
        (fun y => max (outgoing s y).length (incoming s y).length) :=
    List.mem_map_of_mem _ (List.mem_range.mpr hx)
  have := le_foldr_max _ _ hmem
  unfold maxDeg
  exact le_trans (le_max_right _ _) this

theorem outgoing_mem_lt {s : St}
    (h2 : ∀ x v, s.value x = some v →
      ∀ n, n ∈ v.succs ++ v.preds → n < s.numCells) :
    ∀ x, ∀ y ∈ outgoing s x, y < s.numCells := by
  intro x y hy
  unfold outgoing lock at hy
  cases hv : s.value x with
  | none => rw [hv] at hy; simp at hy
  | some v =>
    rw [hv] at hy
    simp only [Option.isSome_some, if_true] at hy
    exact h2 x v hv y (List.mem_append.mpr (Or.inl hy))

theorem incoming_mem_lt {s : St}
    (h2 : ∀ x v, s.value x = some v →
      ∀ n, n ∈ v.succs ++ v.preds → n < s.numCells) :
    ∀ x, ∀ y ∈ incoming s x, y < s.numCells := by
  intro x y hy
  unfold incoming lock at hy
  cases hv : s.value x with
  | none => rw [hv] at hy; simp at hy
  | some v =>
    rw [hv] at hy
    simp only [Option.isSome_some, if_true] at hy
    exact h2 x v hv y (List.mem_append.mpr (Or.inr hy))

theorem traverse_start_cons (nbr : Nat → List Nat) (mode : Bool)
    (fuel c : Nat) :
    traverse nbr mode (fuel + 1) [c] [] =
      c :: traverse nbr mode fuel
        (if mode then nbr c ++ [] else [] ++ nbr c) (c :: []) := by
  simp [traverse]

theorem dfs_out_cons (s : St) (c : Nat) :
    dfs_outgoing s c = c :: (dfs_outgoing s c).drop 1 := by
  unfold dfs_outgoing searchFuel
  rw [traverse_start_cons]
  simp

theorem dfs_in_cons (s : St) (c : Nat) :
    dfs_incoming s c = c :: (dfs_incoming s c).drop 1 := by
  unfold dfs_incoming searchFuel
  rw [traverse_start_cons]
  simp

theorem mem_dfs_outgoing (s : St) (c : Nat)
    (h2 : ∀ x v, s.value x = some v →
      ∀ n, n ∈ v.succs ++ v.preds → n < s.numCells)
    (hc : c < s.numCells) :
    ∀ x, x ∈ dfs_outgoing s c ↔ Reaches (outgoing s) c x := by
  intro x
  unfold dfs_outgoing
  rw [traverse_mem_iff (outgoing s) true (Finset.range s.numCells) (maxDeg s)
    (fun y z hz => Finset.mem_range.mpr (outgoing_mem_lt h2 y z hz))
    (fun y hy => outgoing_len_le (Finset.mem_range.mp hy))
    (searchFuel s) [c] []
    (by intro y hy; simp at hy; subst hy; exact Finset.mem_range.mpr hc)
    (by intro y hy; cases hy)
    (by simp [searchFuel])
    x]
  simp

theorem mem_dfs_incoming (s : St) (c : Nat)
    (h2 : ∀ x v, s.value x = some v →
      ∀ n, n ∈ v.succs ++ v.preds → n < s.numCells)
    (hc : c < s.numCells) :
    ∀ x, x ∈ dfs_incoming s c ↔ Reaches (incoming s) c x := by
  intro x
  unfold dfs_incoming
  rw [traverse_mem_iff (incoming s) true (Finset.range s.numCells) (maxDeg s)
    (fun y z hz => Finset.mem_range.mpr (incoming_mem_lt h2 y z hz))
    (fun y hy => incoming_len_le (Finset.mem_range.mp hy))
    (searchFuel s) [c] []
    (by intro y hy; simp at hy; subst hy; exact Finset.mem_range.mpr hc)
    (by intro y hy; cases hy)
    (by simp [searchFuel])
    x]
  simp

/-- C1: `should_live(C)` is true iff C itself is anchored, or some cell
reachable from C by repeatedly following only outgoing edges is anchored,
or some cell reachable from C by repeatedly following only incoming edges
is anchored.  The two searches are separate universes: an anchored cell
reachable only along a direction-alternating path satisfies neither
disjunct, so it does not make `should_live(C)` true. -/
theorem should_live_iff (s : St) (c : Nat)
    (h2 : ∀ x v, s.value x = some v →
      ∀ n, n ∈ v.succs ++ v.preds → n < s.numCells)
    (hc : c < s.numCells) :
    should_live s c = true ↔
      (is_anchored s c = true ∨
       (∃ x, Reaches (outgoing s) c x ∧ is_anchored s x = true) ∨
       (∃ x, Reaches (incoming s) c x ∧ is_anchored s x = true)) := by
  unfold should_live
  rw [List.any_eq_true]
  constructor
  · rintro ⟨n, hn, hanch⟩
    rcases List.mem_cons.mp hn with rfl | hn'
    · exact Or.inl hanch
    rcases List.mem_append.mp hn' with h | h
    · exact Or.inr (Or.inr ⟨n,
        (mem_dfs_incoming s c h2 hc n).mp (List.mem_of_mem_drop h), hanch⟩)
    · exact Or.inr (Or.inl ⟨n,
        (mem_dfs_outgoing s c h2 hc n).mp (List.mem_of_mem_drop h), hanch⟩)
  · rintro (h | ⟨x, hr, ha⟩ | ⟨x, hr, ha⟩)
    · exact ⟨c, List.mem_cons_self _ _, h⟩
    · have hx : x ∈ dfs_outgoing s c := (mem_dfs_outgoing s c h2 hc x).mpr hr
      rw [dfs_out_cons] at hx
      rcases List.mem_cons.mp hx with rfl | hx'
      · exact ⟨x, List.mem_cons_self _ _, ha⟩
      · exact ⟨x, List.mem_cons_of_mem _
          (List.mem_append.mpr (Or.inr hx')), ha⟩
    · have hx : x ∈ dfs_incoming s c := (mem_dfs_incoming s c h2 hc x).mpr hr
      rw [dfs_in_cons] at hx
      rcases List.mem_cons.mp hx with rfl | hx'
      · exact ⟨x, List.mem_cons_self _ _, ha⟩
      · exact ⟨x, List.mem_cons_of_mem _
          (List.mem_append.mpr (Or.inl hx')), ha⟩

/-! ### The invariant holds in every reachable state -/

theorem Inv_init : Inv St.init := by
  constructor
  · intro x hx; simp [St.init] at hx
  · intro x v hv; simp [St.init] at hv
  · intro c a hc; simp [St.init] at hc
  · intro c a hc; simp [St.init] at hc
  · intro a ha; simp [St.init] at ha
  · intro a _; rfl
  · intro c _; rfl

theorem anchor_upgraded_eq_some {s : St} {c a : Nat}
    (h : anchor_upgraded s c = some a) :
    s.anchorSlot c = some a ∧ s.strong a ≠ 0 := by
  unfold anchor_upgraded at h
  cases hsl : s.anchorSlot c with
  | none => rw [hsl] at h; cases h
  | some b =>
    rw [hsl] at h
    simp only [Option.some_bind] at h
    by_cases hb : s.strong b ≠ 0
    · rw [if_pos hb] at h
      injection h with hba
      subst hba
      exact ⟨rfl, hb⟩
    · rw [if_neg hb] at h; cases h

theorem anchor_upgraded_eq_none {s : St} {c : Nat} (hinv : Inv s)
    (h : anchor_upgraded s c = none) : s.anchorSlot c = none := by
  cases hsl : s.anchorSlot c with
  | none => rfl
  | some b =>
    have hb := hinv.slot_live c b hsl
    unfold anchor_upgraded at h
    rw [hsl] at h
    simp [hb] at h

theorem strong_lt_numAnchors {s : St} (hinv : Inv s) {a : Nat}
    (ha : s.strong a ≠ 0) : a < s.numAnchors := by
  by_contra hge
  exact ha (hinv.fresh_strong a (by omega))

theorem Inv_setValue (s : St) (val' : Nat → Option Payload)
    (hsub : ∀ x, val' x = none ∨ val' x = s.value x) (h : Inv s) :
    Inv { s with value := val' } := by
  constructor
  · intro x hx
    have hx' : (val' x).isSome := hx
    rcases hsub x with h' | h'
    · rw [h'] at hx'; cases hx'
    · rw [h'] at hx'; exact h.wf_value x hx'
  · intro x v hv n hn
    have hv' : val' x = some v := hv
    rcases hsub x with h' | h'
    · rw [h'] at hv'; cases hv'
    · rw [h'] at hv'; exact h.wf_nbr x v hv' n hn
  · exact h.slot_cell
  · exact h.slot_live
  · exact h.live_slot
  · exact h.fresh_strong
  · exact h.fresh_slot

theorem Inv_release (s : St) (c : Nat) (h : Inv s) : Inv (Release s c) :=
  Inv_setValue s _ (releaseVal_subset (s.numCells + 1) s.value c) h

theorem Inv_updValue (s : St) (c : Nat) (v : Payload) (hc : c < s.numCells)
    (hv : ∀ n, n ∈ v.succs ++ v.preds → n < s.numCells) (h : Inv s) :
    Inv { s with value := upd s.value c (some v) } := by
  constructor
  · intro x hx
    have hx' : (upd s.value c (some v) x).isSome := hx
    by_cases hxc : x = c
    · subst hxc; exact hc
    · rw [upd_other _ _ _ _ hxc] at hx'
      exact h.wf_value x hx'
  · intro x w hw n hn
    have hw' : upd s.value c (some v) x = some w := hw
    by_cases hxc : x = c
    · subst hxc
      rw [upd_self] at hw'
      cases hw'
      exact hv n hn
    · rw [upd_other _ _ _ _ hxc] at hw'
      exact h.wf_nbr x w hw' n hn
  · exact h.slot_cell
  · exact h.slot_live
  · exact h.live_slot
  · exact h.fresh_strong
  · exact h.fresh_slot

theorem Inv_incStrong (s : St) (a : Nat) (ha : s.strong a ≠ 0) (h : Inv s) :
    Inv { s with strong := upd s.strong a (s.strong a + 1) } := by
  constructor
  · exact h.wf_value
  · exact h.wf_nbr
  · exact h.slot_cell
  · intro c b hc
    have hc' : s.anchorSlot c = some b := hc
    show upd s.strong a (s.strong a + 1) b ≠ 0
    by_cases hb : b = a
    · subst hb; rw [upd_self]; omega
    · rw [upd_other _ _ _ _ hb]; exact h.slot_live c b hc'
  · intro b hb
    have hb' : upd s.strong a (s.strong a + 1) b ≠ 0 := hb
    show s.anchorSlot (s.anchorCell b) = some b
    by_cases hba : b = a
    · subst hba; exact h.live_slot b ha
    · rw [upd_other _ _ _ _ hba] at hb'
      exact h.live_slot b hb'
  · intro b hb
    have hb' : s.numAnchors ≤ b := hb
    have hlt := strong_lt_numAnchors h ha
    have hba : b ≠ a := by omega
    show upd s.strong a (s.strong a + 1) b = 0
    rw [upd_other _ _ _ _ hba]
    exact h.fresh_strong b hb'
  · exact h.fresh_slot

theorem Inv_mkAnchor (s : St) (c : Nat) (hc : c < s.numCells) (h : Inv s) :
    Inv (mkAnchor s c).1 := by
  unfold mkAnchor
  cases hup : anchor_upgraded s c with
  | some a =>
    obtain ⟨_, hstrong⟩ := anchor_upgraded_eq_some hup
    exact Inv_incStrong s a hstrong h
  | none =>
    have hslot : s.anchorSlot c = none := anchor_upgraded_eq_none h hup
    have hAdead : s.strong s.numAnchors = 0 := h.fresh_strong _ le_rfl
    constructor
    · exact h.wf_value
    · exact h.wf_nbr
    · intro c' a' hc'
      have hc'' : upd s.anchorSlot c (some s.numAnchors) c' = some a' := hc'
      by_cases hcc : c' = c
      · subst hcc
        rw [upd_self] at hc''
        cases hc''
        show upd s.anchorCell s.numAnchors c' s.numAnchors = c'
        exact upd_self _ _ _
      · rw [upd_other _ _ _ _ hcc] at hc''
        have hne : a' ≠ s.numAnchors := by
          intro heq
          exact h.slot_live c' a' hc'' (heq ▸ hAdead)
        show upd s.anchorCell s.numAnchors c a' = c'
        rw [upd_other _ _ _ _ hne]
        exact h.slot_cell c' a' hc''
    · intro c' a' hc'
      have hc'' : upd s.anchorSlot c (some s.numAnchors) c' = some a' := hc'
      by_cases hcc : c' = c
      · subst hcc
        rw [upd_self] at hc''
        cases hc''
        show upd s.strong s.numAnchors 1 s.numAnchors ≠ 0
        rw [upd_self]
        omega
      · rw [upd_other _ _ _ _ hcc] at hc''
        have hne : a' ≠ s.numAnchors := by
          intro heq
          exact h.slot_live c' a' hc'' (heq ▸ hAdead)
        show upd s.strong s.numAnchors 1 a' ≠ 0
        rw [upd_other _ _ _ _ hne]
        exact h.slot_live c' a' hc''
    · intro b hb
      have hb' : upd s.strong s.numAnchors 1 b ≠ 0 := hb
      by_cases hbA : b = s.numAnchors
      · subst hbA
        show upd s.anchorSlot c (some s.numAnchors)
          (upd s.anchorCell s.numAnchors c s.numAnchors) = some s.numAnchors
        rw [upd_self, upd_self]
      · rw [upd_other _ _ _ _ hbA] at hb'
        have hcell := h.live_slot b hb'
        have hcb : s.anchorCell b ≠ c := by
          intro heq
          rw [heq, hslot] at hcell
          cases hcell
        show upd s.anchorSlot c (some s.numAnchors)
          (upd s.anchorCell s.numAnchors c b) = some b
        rw [upd_other _ _ _ _ hbA, upd_other _ _ _ _ hcb]
        exact hcell
    · intro b hb
      have hb' : s.numAnchors + 1 ≤ b := hb
      have hbA : b ≠ s.numAnchors := by omega
      show upd s.strong s.numAnchors 1 b = 0
      rw [upd_other _ _ _ _ hbA]
      exact h.fresh_strong b (by omega)
    · intro c' hc'
      have hc'' : s.numCells ≤ c' := hc'
      have hcc : c' ≠ c := by omega
      show upd s.anchorSlot c (some s.numAnchors) c' = none
      rw [upd_other _ _ _ _ hcc]
      exact h.fresh_slot c' hc''

theorem Inv_newNode (s : St) (h : Inv s) : Inv (newNode s).1 := by
  have h1 : Inv { s with
      numCells := s.numCells + 1
      value := upd s.value s.numCells (some { succs := [], preds := [] }) } := by
    constructor
    · intro x hx
      have hx' : (upd s.value s.numCells
          (some { succs := [], preds := [] }) x).isSome := hx
      show x < s.numCells + 1
      by_cases hxc : x = s.numCells
      · subst hxc; omega
      · rw [upd_other _ _ _ _ hxc] at hx'
        have := h.wf_value x hx'
        omega
    · intro x v hv n hn
      have hv' : upd s.value s.numCells
          (some { succs := [], preds := [] }) x = some v := hv
      show n < s.numCells + 1
      by_cases hxc : x = s.numCells
      · subst hxc
        rw [upd_self] at hv'
        cases hv'
        cases hn
      · rw [upd_other _ _ _ _ hxc] at hv'
        have := h.wf_nbr x v hv' n hn
        omega
    · exact h.slot_cell
    · exact h.slot_live
    · exact h.live_slot
    · exact h.fresh_strong
    · intro c hc
      have hc' : s.numCells + 1 ≤ c := hc
      exact h.fresh_slot c (by omega)
  exact Inv_mkAnchor _ s.numCells (by show s.numCells < s.numCells + 1; omega) h1

theorem Inv_pushPred (s : St) (f t : Nat) (htN : t < s.numCells)
    (hfN : f < s.numCells) (h : Inv s) : Inv (pushPred s f t) := by
  unfold pushPred
  cases hvt : s.value t with
  | none => exact h
  | some vt =>
    show Inv { s with
      value := upd s.value t (some { vt with preds := vt.preds ++ [f] }) }
    refine Inv_updValue s t _ htN ?_ h
    intro n hn
    rcases List.mem_append.mp hn with hn1 | hn2
    · exact h.wf_nbr t vt hvt n (List.mem_append.mpr (Or.inl hn1))
    · rcases List.mem_append.mp hn2 with hp | hp
      · exact h.wf_nbr t vt hvt n (List.mem_append.mpr (Or.inr hp))
      · obtain rfl := List.mem_singleton.mp hp
        exact hfN

theorem Inv_add_edge (s : St) (f t : Nat) (hf : is_alive s f = true)
    (ht : is_alive s t = true) (h : Inv s) : Inv (add_edge s f t) := by
  have hfN : f < s.numCells := h.wf_value f (by simpa [is_alive] using hf)
  have htN : t < s.numCells := h.wf_value t (by simpa [is_alive] using ht)
  unfold add_edge
  cases hvf : s.value f with
  | none => exact h
  | some vf =>
    have h1 : Inv { s with
        value := upd s.value f (some { vf with succs := vf.succs ++ [t] }) } := by
      refine Inv_updValue s f _ hfN ?_ h
      intro n hn
      rcases List.mem_append.mp hn with hn1 | hn2
      · rcases List.mem_append.mp hn1 with hs | hs
        · exact h.wf_nbr f vf hvf n (List.mem_append.mpr (Or.inl hs))
        · obtain rfl := List.mem_singleton.mp hs
          exact htN
      · exact h.wf_nbr f vf hvf n (List.mem_append.mpr (Or.inr hn2))
    exact Inv_pushPred _ f t htN hfN h1

theorem Inv_clearAnchor (s : St) (a : Nat) (ha : s.strong a ≠ 0)
    (h : Inv s) : Inv (clearAnchor s a) := by
  constructor
  · exact h.wf_value
  · exact h.wf_nbr
  · intro c' a' hc'
    have hc'' : upd s.anchorSlot (s.anchorCell a) none c' = some a' := hc'
    by_cases hcc : c' = s.anchorCell a
    · subst hcc; rw [upd_self] at hc''; cases hc''
    · rw [upd_other _ _ _ _ hcc] at hc''
      exact h.slot_cell c' a' hc''
  · intro c' a' hc'
    have hc'' : upd s.anchorSlot (s.anchorCell a) none c' = some a' := hc'
    by_cases hcc : c' = s.anchorCell a
    · subst hcc; rw [upd_self] at hc''; cases hc''
    · rw [upd_other _ _ _ _ hcc] at hc''
      have haa : a' ≠ a := by
        intro heq
        subst heq
        exact hcc (h.slot_cell c' a' hc'').symm
      show upd s.strong a 0 a' ≠ 0
      rw [upd_other _ _ _ _ haa]
      exact h.slot_live c' a' hc''
  · intro b hb
    have hb' : upd s.strong a 0 b ≠ 0 := hb
    by_cases hba : b = a
    · subst hba; rw [upd_self] at hb'; omega
    · rw [upd_other _ _ _ _ hba] at hb'
      have hcell := h.live_slot b hb'
      have hcb : s.anchorCell b ≠ s.anchorCell a := by
        intro heq
        have hcella := h.live_slot a ha
        rw [heq, hcella] at hcell
        cases hcell
        exact hba rfl
      show upd s.anchorSlot (s.anchorCell a) none (s.anchorCell b) = some b
      rw [upd_other _ _ _ _ hcb]
      exact hcell
  · intro b hb
    have hb' : s.numAnchors ≤ b := hb
    show upd s.strong a 0 b = 0
    by_cases hba : b = a
    · subst hba; exact upd_self _ _ _
    · rw [upd_other _ _ _ _ hba]
      exact h.fresh_strong b hb'
  · intro c' hc'
    show upd s.anchorSlot (s.anchorCell a) none c' = none
    by_cases hcc : c' = s.anchorCell a
    · subst hcc; exact upd_self _ _ _
    · rw [upd_other _ _ _ _ hcc]
      exact h.fresh_slot c' hc'

theorem Inv_dropAnchor (s : St) (a : Nat) (ha : s.strong a ≠ 0)
    (h : Inv s) : Inv (dropAnchor s a) := by
  unfold dropAnchor
  by_cases h1 : s.strong a ≤ 1
  · rw [if_pos h1]
    have hclear := Inv_clearAnchor s a ha h
    by_cases h2 : should_live (clearAnchor s a) (s.anchorCell a) = true
    · rw [if_pos h2]; exact hclear
    · rw [if_neg h2]; exact Inv_release _ _ hclear
  · rw [if_neg h1]
    constructor
    · exact h.wf_value
    · exact h.wf_nbr
    · exact h.slot_cell
    · intro c' a' hc'
      have hc'' := h.slot_live c' a' hc'
      show upd s.strong a (s.strong a - 1) a' ≠ 0
      by_cases haa : a' = a
      · subst haa; rw [upd_self]; omega
      · rw [upd_other _ _ _ _ haa]; exact hc''
    · intro b hb
      have hb' : upd s.strong a (s.strong a - 1) b ≠ 0 := hb
      by_cases hba : b = a
      · subst hba; exact h.live_slot b ha
      · rw [upd_other _ _ _ _ hba] at hb'
        exact h.live_slot b hb'
    · intro b hb
      have hlt := strong_lt_numAnchors h ha
      have hb' : s.numAnchors ≤ b := hb
      have hba : b ≠ a := by omega
      show upd s.strong a (s.strong a - 1) b = 0
      rw [upd_other _ _ _ _ hba]
      exact h.fresh_strong b hb'
    · exact h.fresh_slot

theorem Inv_step {s s' : St} (h : Inv s) (hs : Step s s') : Inv s' := by
  cases hs with
  | newNode => exact Inv_newNode s h
  | add_edge f t hf ht => exact Inv_add_edge s f t hf ht h
  | upgrade c =>
    unfold upgradeSt upgrade
    by_cases hal : is_alive s c = true
    · rw [if_pos hal]
      exact Inv_mkAnchor s c (h.wf_value c (by simpa [is_alive] using hal)) h
    · rw [if_neg hal]; exact h
  | cloneNode a ha => exact Inv_incStrong s a ha h
  | dropAnchor a ha => exact Inv_dropAnchor s a ha h

theorem reach_inv {s : St} (h : Reachable s) : Inv s := by
  induction h with
  | init => exact Inv_init
  | step _ hs ih => exact Inv_step ih hs

/-! ### Remaining claim theorems and witnesses -/

/-- C1 witness: the alternating-direction state `sAlt` (edges 0→1 and 2→1,
only cell 2 anchored) satisfies the hypotheses of `should_live_iff`; there,
cell 2 is reachable from cell 0 only by an outgoing step followed by an
incoming step, and `should_live` of cell 0 is false although the anchored
cell 2 exists. -/
theorem should_live_iff_witness :
    0 < sAlt.numCells ∧
    (should_live sAlt 0 = true ↔
      (is_anchored sAlt 0 = true ∨
       (∃ x, Reaches (outgoing sAlt) 0 x ∧ is_anchored sAlt x = true) ∨
       (∃ x, Reaches (incoming sAlt) 0 x ∧ is_anchored sAlt x = true))) ∧
    should_live sAlt 0 = false ∧
    is_anchored sAlt 2 = true ∧
    is_alive sAlt 2 = true :=
  ⟨by decide,
   should_live_iff sAlt 0 (reach_inv reachable_sAlt).wf_nbr (by decide),
   by decide, by decide, by decide⟩

/-- C4 witness: on the live three-cycle `sP3`, releasing cell 0 twice is
the same as releasing it once. -/
theorem release_cascade_idempotent_witness :
    1 ≤ sP3.numCells ∧
    Release (Release sP3 0) 0 = Release sP3 0 :=
  ⟨by decide, (release_cascade_idempotent sP3 0 (by decide)).2.2⟩

/-- C5 witness: on the live three-cycle `sP3`, the release recursion from
cell 0 with the minimal sufficient budget (3 alive cells + 1) agrees with
`Release`'s own budget. -/
theorem release_terminates_witness :
    aliveCount sP3.numCells sP3.value + 1 ≤ 4 ∧
    releaseVal 4 sP3.value 0 = (Release sP3 0).value :=
  ⟨by decide,
   release_terminates sP3 0 (reach_inv reachable_sP3).wf_value 4 (by decide)⟩

/-- C6: promotion returns an owning handle iff the payload is present, and
locking returns a guard iff the payload is present; a released cell yields
an empty result in both cases. -/
theorem upgrade_lock_iff_present (s : St) (c : Nat) :
    ((upgrade s c).isSome = true ↔ (s.value c).isSome = true) ∧
    ((lock s c).isSome = true ↔ (s.value c).isSome = true) := by
  cases h : (s.value c).isSome <;>
    simp [upgrade, lock, is_alive, h]

/-- C7 counterexample: in the reachable state `sBug`, cell 0 still has a
live anchor (anchor 0, strong count 1), yet a promotion request on cell 0
returns nothing and does not increase the anchor's strong count, because
the cell's payload was already taken by the mixed-direction cascade. -/
theorem promotion_on_anchored_dead_cell :
    Reachable sBug ∧
    sBug.strong 0 ≠ 0 ∧
    sBug.anchorCell 0 = 0 ∧
    is_anchored sBug 0 = true ∧
    (upgrade sBug 0).isSome = false ∧
    (upgradeSt sBug 0).strong 0 = 1 ∧
    sBug.strong 0 = 1 ∧
    ¬ (upgradeSt sBug 0).strong 0 = sBug.strong 0 + 1 :=
  ⟨reachable_sBug, by decide, by decide, by decide, by decide, by decide,
   by decide, by decide⟩

/-- C7 (amended): in every reachable state each cell has at most one live
anchor, and a promotion requested on a cell that has a live anchor and a
still-present payload reuses that anchor — its strong count increases by
one and no new anchor is allocated. -/
theorem anchor_unique_and_reused (s : St) (hr : Reachable s) :
    (∀ a b, s.strong a ≠ 0 → s.strong b ≠ 0 →
      s.anchorCell a = s.anchorCell b → a = b) ∧
    (∀ c a, s.strong a ≠ 0 → s.anchorCell a = c → is_alive s c = true →
      upgrade s c =
        some ({ s with strong := upd s.strong a (s.strong a + 1) }, a)) := by
  have hinv := reach_inv hr
  constructor
  · intro a b ha hb hab
    have hsa := hinv.live_slot a ha
    have hsb := hinv.live_slot b hb
    rw [hab, hsb] at hsa
    injection hsa with h
    exact h.symm
  · intro c a ha hcell halive
    have hslot : s.anchorSlot c = some a := by
      have := hinv.live_slot a ha
      rwa [hcell] at this
    have hup : anchor_upgraded s c = some a := by
      unfold anchor_upgraded
      rw [hslot]
      simp [ha]
    unfold upgrade
    rw [if_pos halive]
    unfold mkAnchor
    rw [hup]

/-- C7 witness: in the single-node reachable state `sOne`, cell 0 has live
anchor 0 with strong count 1; promotion reuses anchor 0 and bumps its
strong count to 2 without allocating a new anchor. -/
theorem anchor_unique_and_reused_witness :
    Reachable sOne ∧
    sOne.strong 0 ≠ 0 ∧
    sOne.anchorCell 0 = 0 ∧
    is_alive sOne 0 = true ∧
    upgrade sOne 0 =
      some ({ sOne with strong := upd sOne.strong 0 (sOne.strong 0 + 1) }, 0) ∧
    (upgradeSt sOne 0).strong 0 = 2 ∧
    (upgradeSt sOne 0).numAnchors = sOne.numAnchors :=
  ⟨reachable_sOne, by decide, by decide, by decide,
   (anchor_unique_and_reused sOne reachable_sOne).2 0 0 (by decide) (by decide)
     (by decide),
   by decide, by decide⟩

/-- C8: in every reachable state, `is_anchored` returns true iff the
cell's anchor slot is occupied by a weak reference that still upgrades to
a live anchor of that very cell — occupied slots never hold dead weak
references in reachable states. -/
theorem is_anchored_iff_live (s : St) (c : Nat) (hr : Reachable s) :
    is_anchored s c = true ↔
      ∃ a, s.anchorSlot c = some a ∧ s.strong a ≠ 0 ∧ s.anchorCell a = c := by
  have hinv := reach_inv hr
  constructor
  · intro hc
    unfold is_anchored at hc
    cases hsl : s.anchorSlot c with
    | none => rw [hsl] at hc; cases hc
    | some a =>
      exact ⟨a, rfl, hinv.slot_live c a hsl, hinv.slot_cell c a hsl⟩
  · rintro ⟨a, hsl, -, -⟩
    unfold is_anchored
    rw [hsl]
    rfl

/-- C8 witness: in the reachable single-node state `sOne`, cell 0's anchor
slot holds anchor 0, which is live. -/
theorem is_anchored_iff_live_witness :
    Reachable sOne ∧
    (is_anchored sOne 0 = true ↔
      ∃ a, sOne.anchorSlot 0 = some a ∧ sOne.strong a ≠ 0 ∧
        sOne.anchorCell a = 0) :=
  ⟨reachable_sOne, is_anchored_iff_live sOne 0 reachable_sOne⟩

theorem traverse_empty_ws (nbr : Nat → List Nat) (mode : Bool) :
    ∀ (f : Nat) (vis : List Nat), traverse nbr mode f [] vis = [] := by
  intro f vis
  cases f <;> rfl

theorem traverse_single (nbr : Nat → List Nat) (mode : Bool) (f c : Nat)
    (h : nbr c = []) : traverse nbr mode (f + 1) [c] [] = [c] := by
  rw [traverse_start_cons, h]
  cases mode <;> simp [traverse_empty_ws]

theorem outgoing_of_released {s : St} {c : Nat} (h : s.value c = none) :
    outgoing s c = [] := by
  unfold outgoing lock
  rw [h]
  rfl

theorem incoming_of_released {s : St} {c : Nat} (h : s.value c = none) :
    incoming s c = [] := by
  unfold incoming lock
  rw [h]
  rfl

/-- C10: every traversal started from a cell whose payload has been
released yields exactly the starting cell: the start is emitted before its
payload is consulted, and locking the released cell yields no neighbors. -/
theorem released_traversal_singleton (s : St) (c : Nat)
    (h : s.value c = none) :
    dfs_outgoing s c = [c] ∧ dfs_incoming s c = [c] ∧
    bfs_outgoing s c = [c] ∧ bfs_incoming s c = [c] := by
  refine ⟨?_, ?_, ?_, ?_⟩
  · exact traverse_single _ _ _ _ (outgoing_of_released h)
  · exact traverse_single _ _ _ _ (incoming_of_released h)
  · exact traverse_single _ _ _ _ (outgoing_of_released h)
  · exact traverse_single _ _ _ _ (incoming_of_released h)

/-- C10 witness: in `sRel` the only node's payload has been released and
each traversal from it yields just that cell. -/
theorem released_traversal_singleton_witness :
    sRel.value 0 = none ∧
    (dfs_outgoing sRel 0 = [0] ∧ dfs_incoming sRel 0 = [0] ∧
     bfs_outgoing sRel 0 = [0] ∧ bfs_incoming sRel 0 = [0]) :=
  ⟨by decide, released_traversal_singleton sRel 0 (by decide)⟩

end Internode
